import Mathlib

/-!
# Verification of `subarray-ring-buffer`

A shallow embedding of the `RingBuffer` class of `index.js` (the only source
module of the repository) and proofs about it.

Modelling conventions:
* A Node.js `Buffer` is a `List Nat` of its byte values; byte values are
  plain naturals (no claim depends on the 0..255 bound).
* `Buffer.prototype.copy (target, targetStart, sourceStart, sourceEnd)` is
  modelled by `bufCopy target targetStart src` where `src` is the
  `[sourceStart, sourceEnd)` slice of the source, already cut out with
  `List.take` / `List.drop` at each call site.  Like the real `copy`, it
  never grows the target: bytes past the end of the target are dropped.
* `Buffer.allocUnsafe size` returns uninitialized memory; we model its
  contents as zeros (no claim reads a byte that was never written) and its
  argument check as rejecting negative sizes.  The platform upper bound
  `kMaxLength` is not modelled.
* A JavaScript `throw` is an `Except.error`; since the class throws before
  mutating any private field, an erroring call leaves the object unchanged,
  which the `Except`-returning translation captures by not producing a
  successor state.
* The value returned by `write` is a `View`: which storage ranges it
  denotes (`segs`, re-read live on every access, exactly like
  `Buffer.subarray` / `BufferList` which alias the backing memory), whether
  the runtime object is a `BufferList` rather than a plain `Buffer`
  (`isBufferList`), and, in safe mode, the `safeOffset` captured by the
  `Proxy` closure.  Reading a view (`View.read`) takes the ring buffer's
  current state, mirroring the `Proxy` `get` trap that compares the live
  `#totalOffset` against the captured `safeOffset` on every property
  access before delegating to the target (or to `emptyBufferList`).
-/

namespace SubarrayRingBuffer

/-- The private state of a `RingBuffer` instance: fields `#buffer`,
`#offset`, `#strict`, `#safe`, `#totalOffset` of the class. -/
structure RingBuffer where
  buffer : List Nat
  offset : Nat
  strict : Bool
  safe : Bool
  totalOffset : Nat
deriving DecidableEq, Repr

/-- `src.copy (target, tStart)` for a pre-sliced source: overwrite
`target` from index `tStart` on with the bytes of `src`, clamped so the
result keeps the target's length. -/
def bufCopy (target : List Nat) (tStart : Nat) (src : List Nat) : List Nat :=
  (List.range target.length).map fun j =>
    if tStart ≤ j ∧ j < tStart + src.length then src.getD (j - tStart) 0 else target.getD j 0

/-- Which region(s) of the backing storage a returned view denotes.
`whole` is `this.#buffer` itself (oversized-chunk branch), `contiguous`
is `this.#buffer.subarray(start, stop)`, `wrapped` is the
`BufferList` of `subarray(start)` and `subarray(0, stop2)`. -/
inductive Segments where
  | whole
  | contiguous (start stop : Nat)
  | wrapped (start stop2 : Nat)
deriving DecidableEq, Repr

/-- Is the denoted region the two-segment (wrap-around) one? -/
def Segments.isWrapped : Segments → Bool
  | .wrapped _ _ => true
  | _ => false

/-- Reading a (sub)view of the storage: `subarray` aliases the live
buffer, a `BufferList` concatenates its two live subarrays. -/
def Segments.read (s : Segments) (buf : List Nat) : List Nat :=
  match s with
  | .whole => buf
  | .contiguous a b => (buf.take b).drop a
  | .wrapped a b2 => buf.drop a ++ buf.take b2

/-- The object returned by `RingBuffer.write`. -/
structure View where
  segs : Segments
  /-- `true` when the runtime object is a `BufferList` (possibly behind the
  safe-mode `Proxy`), `false` when it is a plain `Buffer`. -/
  isBufferList : Bool
  /-- In safe mode, the `safeOffset` constant captured by the `Proxy`
  handler; `none` outside safe mode. -/
  safeOffset : Option Nat
deriving DecidableEq, Repr

/-- The private method `#write(chunk)` (lines 69-89 of `index.js`). -/
def RingBuffer.writeInner (rb : RingBuffer) (chunk : List Nat) :
    Except String (RingBuffer × Segments) :=
  if chunk.length > rb.buffer.length then
    if rb.strict then
      .error "chunk length exceeds size of ring buffer"
    else
      .ok ({ rb with
              buffer := bufCopy rb.buffer 0 (chunk.drop (chunk.length - rb.buffer.length)) },
           .whole)
  else if rb.offset + chunk.length > rb.buffer.length then
    let remaining := rb.buffer.length - rb.offset
    .ok ({ rb with
            buffer := bufCopy (bufCopy rb.buffer rb.offset (chunk.take remaining)) 0
              (chunk.drop remaining),
            offset := chunk.length - remaining },
         .wrapped rb.offset (chunk.length - remaining))
  else
    .ok ({ rb with
            buffer := bufCopy rb.buffer rb.offset chunk,
            offset := rb.offset + chunk.length },
         .contiguous rb.offset (rb.offset + chunk.length))

/-- The public method `write(chunk)` (lines 39-67 of `index.js`).  In safe
mode it captures `safeOffset`, runs `#write`, advances `#totalOffset` by
the full chunk length, wraps a plain `Buffer` result into a `BufferList`,
and returns the proxied view. -/
def RingBuffer.write (rb : RingBuffer) (chunk : List Nat) :
    Except String (RingBuffer × View) :=
  if !rb.safe then
    match rb.writeInner chunk with
    | .error e => .error e
    | .ok (rb', segs) => .ok (rb', ⟨segs, segs.isWrapped, none⟩)
  else
    let safeOffset := rb.totalOffset + rb.buffer.length
    match rb.writeInner chunk with
    | .error e => .error e
    | .ok (rb', segs) =>
        .ok ({ rb' with totalOffset := rb'.totalOffset + chunk.length },
             ⟨segs, true, some safeOffset⟩)

/-- Materializing a returned view (any read access: `length`, byte access,
`toString`, ...) against the ring buffer's current state.  Outside safe
mode this is a plain live read; in safe mode the `Proxy` trap first
compares the live `#totalOffset` with the captured `safeOffset`. -/
def View.read (v : View) (rb : RingBuffer) : Except String (List Nat) :=
  match v.safeOffset with
  | none => .ok (v.segs.read rb.buffer)
  | some so =>
      if so < rb.totalOffset then
        if rb.strict then .error "buffer is no longer safe to access"
        else .ok []
      else .ok (v.segs.read rb.buffer)

/-- The class constructor `new RingBuffer(size, strict, safe)`
(lines 27-31 of `index.js`): no validation of its own, only
`Buffer.allocUnsafe(size)`, which rejects negative sizes. -/
def RingBuffer.construct (size : Int) (strict safe : Bool) :
    Except String RingBuffer :=
  if size < 0 then .error "The value of size is out of range"
  else .ok { buffer := List.replicate size.toNat 0, offset := 0,
             strict := strict, safe := safe, totalOffset := 0 }

/-- One `write` call, discarding the returned view; a call that throws
leaves the instance unchanged (the caller catches the exception and goes
on). -/
def RingBuffer.writeStep (rb : RingBuffer) (c : List Nat) : RingBuffer :=
  match rb.write c with
  | .error _ => rb
  | .ok (rb', _) => rb'

/-- A sequence of `write` calls, discarding the returned views. -/
def RingBuffer.writeMany (rb : RingBuffer) (chunks : List (List Nat)) : RingBuffer :=
  match chunks with
  | [] => rb
  | c :: cs => (rb.writeStep c).writeMany cs

/-- Forward distance from offset `o` to index `j` walking the ring of
size `cap` upward (wrapping at `cap`). -/
def ringDist (cap o j : Nat) : Nat :=
  if o ≤ j then j - o else j + cap - o

/-- The storage index holding logical byte `i` of data placed from
offset `a` on, wrapping at `cap`. -/
def ringPos (cap a i : Nat) : Nat :=
  if a + i < cap then a + i else a + i - cap

/-- Shape of the segment descriptor a `write` starting at offset `a` with a
chunk of length `n` returns when it does not take the oversized branch. -/
def SegShape (segs : Segments) (a n cap : Nat) : Prop :=
  (segs = .contiguous a (a + n) ∧ a + n ≤ cap) ∨
  (segs = .wrapped a (n - (cap - a)) ∧ a ≤ cap ∧ cap < a + n ∧ n ≤ cap)

/-- Invariant tying a safe-mode view created by a write of `chunk` starting
at offset `a` when `#totalOffset` was `t0`, to a later state `s` of the ring
buffer: either at least one byte of the view has been reclaimed (the live
total is strictly past `t0 + cap`), or the view's bytes are intact and the
current offset is still at ring distance `cap + i - (n + S)` from the view's
logical byte `i`, where `S` counts the bytes written since. -/
def ViewInv (cap t0 a : Nat) (chunk : List Nat) (segs : Segments)
    (s : RingBuffer) : Prop :=
  s.buffer.length = cap ∧ s.offset ≤ cap ∧ s.safe = true ∧
  (t0 + cap < s.totalOffset ∨
    (SegShape segs a chunk.length cap ∧
      ∃ S, s.totalOffset = t0 + chunk.length + S ∧ chunk.length + S ≤ cap ∧
        ∀ i, i < chunk.length →
          s.buffer.getD (ringPos cap a i) 0 = chunk.getD i 0 ∧
          ringDist cap s.offset (ringPos cap a i) = cap + i - (chunk.length + S)))

/-! ## List helper lemmas -/

lemma getD_map_range (f : Nat → Nat) {n j : Nat} (h : j < n) :
    ((List.range n).map f).getD j 0 = f j := by
  rw [List.getD_eq_getElem _ _ (by simpa using h)]
  simp

lemma getD_take {l : List Nat} {k i : Nat} (h : i < k) :
    (l.take k).getD i 0 = l.getD i 0 := by
  by_cases hi : i < l.length
  · rw [List.getD_eq_getElem _ _ (by simp; omega), List.getD_eq_getElem _ _ hi]
    simp
  · rw [List.getD_eq_default _ _ (by simp; omega), List.getD_eq_default _ _ (by omega)]

lemma getD_drop (l : List Nat) (k i : Nat) :
    (l.drop k).getD i 0 = l.getD (k + i) 0 := by
  by_cases hi : k + i < l.length
  · rw [List.getD_eq_getElem _ _ (by simp; omega), List.getD_eq_getElem _ _ hi]
    simp
  · rw [List.getD_eq_default _ _ (by simp; omega), List.getD_eq_default _ _ (by omega)]

lemma eq_of_getD {l1 l2 : List Nat} (h : l1.length = l2.length)
    (h2 : ∀ i, i < l1.length → l1.getD i 0 = l2.getD i 0) : l1 = l2 := by
  refine List.ext_getElem h fun n h1 h1' => ?_
  have := h2 n h1
  rwa [List.getD_eq_getElem _ _ h1, List.getD_eq_getElem _ _ h1'] at this

/-! ## `bufCopy` characterization -/

lemma bufCopy_length (t : List Nat) (s : Nat) (src : List Nat) :
    (bufCopy t s src).length = t.length := by
  simp [bufCopy]

lemma bufCopy_getD {t : List Nat} {s : Nat} {src : List Nat} {j : Nat}
    (h : j < t.length) :
    (bufCopy t s src).getD j 0 =
      if s ≤ j ∧ j < s + src.length then src.getD (j - s) 0 else t.getD j 0 := by
  rw [bufCopy, getD_map_range _ h]

lemma bufCopy_zero_full {t src : List Nat} (h : src.length = t.length) :
    bufCopy t 0 src = src := by
  refine eq_of_getD (by rw [bufCopy_length, h]) fun i hi => ?_
  rw [bufCopy_length] at hi
  rw [bufCopy_getD hi, if_pos ⟨Nat.zero_le _, by omega⟩, Nat.sub_zero]

/-! ## Branch equations of `#write` -/

lemma writeInner_oversized {rb : RingBuffer} {chunk : List Nat}
    (hbig : rb.buffer.length < chunk.length) (hst : rb.strict = false) :
    rb.writeInner chunk =
      .ok ({ rb with
              buffer := bufCopy rb.buffer 0 (chunk.drop (chunk.length - rb.buffer.length)) },
           .whole) := by
  simp [RingBuffer.writeInner, hbig, hst]

lemma writeInner_strict_oversized {rb : RingBuffer} {chunk : List Nat}
    (hbig : rb.buffer.length < chunk.length) (hst : rb.strict = true) :
    rb.writeInner chunk = .error "chunk length exceeds size of ring buffer" := by
  simp [RingBuffer.writeInner, hbig, hst]

lemma writeInner_wrap {rb : RingBuffer} {chunk : List Nat}
    (hn : chunk.length ≤ rb.buffer.length)
    (hw : rb.buffer.length < rb.offset + chunk.length) :
    rb.writeInner chunk =
      .ok ({ rb with
              buffer := bufCopy (bufCopy rb.buffer rb.offset
                  (chunk.take (rb.buffer.length - rb.offset))) 0
                (chunk.drop (rb.buffer.length - rb.offset)),
              offset := chunk.length - (rb.buffer.length - rb.offset) },
           .wrapped rb.offset (chunk.length - (rb.buffer.length - rb.offset))) := by
  have h1 : ¬ chunk.length > rb.buffer.length := by omega
  simp [RingBuffer.writeInner, h1, hw]

lemma writeInner_fit {rb : RingBuffer} {chunk : List Nat}
    (hfit : rb.offset + chunk.length ≤ rb.buffer.length) :
    rb.writeInner chunk =
      .ok ({ rb with
              buffer := bufCopy rb.buffer rb.offset chunk,
              offset := rb.offset + chunk.length },
           .contiguous rb.offset (rb.offset + chunk.length)) := by
  have h1 : ¬ chunk.length > rb.buffer.length := by omega
  have h2 : ¬ rb.offset + chunk.length > rb.buffer.length := by omega
  simp [RingBuffer.writeInner, h1, h2]

/-! ## Ring arithmetic -/

lemma ringPos_lt {cap a i : Nat} (ha : a ≤ cap) (hi : i < cap) :
    ringPos cap a i < cap := by
  simp only [ringPos]; split_ifs <;> omega

lemma ringDist_ringPos_self {cap a i n : Nat} (ha : a ≤ cap) (hi : i < n) (hn : n ≤ cap) :
    ringDist cap a (ringPos cap a i) = i := by
  simp only [ringDist, ringPos]; split_ifs <;> omega

lemma ringDist_newOffset {cap a i n o2 : Nat} (ha : a ≤ cap) (hi : i < n) (hn : n ≤ cap)
    (ho2 : (a + n ≤ cap ∧ o2 = a + n) ∨ (cap < a + n ∧ o2 = a + n - cap)) :
    ringDist cap o2 (ringPos cap a i) = cap + i - n := by
  simp only [ringDist, ringPos]; split_ifs <;> omega

lemma ringDist_step {cap o m j o2 : Nat} (ho : o ≤ cap) (hm : m ≤ cap) (hj : j < cap)
    (ho2 : (o + m ≤ cap ∧ o2 = o + m) ∨ (cap < o + m ∧ o2 = o + m - cap))
    (hge : m ≤ ringDist cap o j) :
    ringDist cap o2 j = ringDist cap o j - m := by
  simp only [ringDist] at hge ⊢
  split_ifs at hge ⊢ <;> omega

/-! ## Pointwise effect of a non-oversized placement -/

lemma bufCopy_fit_getD {b chunk : List Nat} {o j : Nat}
    (hfit : o + chunk.length ≤ b.length) (hj : j < b.length) :
    (bufCopy b o chunk).getD j 0 =
      if ringDist b.length o j < chunk.length
      then chunk.getD (ringDist b.length o j) 0 else b.getD j 0 := by
  rw [bufCopy_getD hj]
  by_cases hin : o ≤ j ∧ j < o + chunk.length
  · rw [if_pos hin]
    have hdist : ringDist b.length o j = j - o := by
      simp only [ringDist]; split_ifs <;> omega
    rw [hdist, if_pos (by omega)]
  · rw [if_neg hin]
    by_cases ho : o ≤ j
    · have hdist : ringDist b.length o j = j - o := by
        simp only [ringDist]; split_ifs <;> omega
      rw [hdist, if_neg (by omega)]
    · have hdist : ringDist b.length o j = j + b.length - o := by
        simp only [ringDist]; split_ifs <;> omega
      rw [hdist, if_neg (by omega)]

lemma bufCopy_wrap_getD {b chunk : List Nat} {o j : Nat} (ho : o ≤ b.length)
    (hn : chunk.length ≤ b.length) (hw : b.length < o + chunk.length)
    (hj : j < b.length) :
    (bufCopy (bufCopy b o (chunk.take (b.length - o))) 0
        (chunk.drop (b.length - o))).getD j 0 =
      if ringDist b.length o j < chunk.length
      then chunk.getD (ringDist b.length o j) 0 else b.getD j 0 := by
  have hj1 : j < (bufCopy b o (chunk.take (b.length - o))).length := by
    rw [bufCopy_length]; exact hj
  rw [bufCopy_getD hj1]
  have hdlen : (chunk.drop (b.length - o)).length = chunk.length - (b.length - o) := by
    simp
  by_cases hout : 0 ≤ j ∧ j < 0 + (chunk.drop (b.length - o)).length
  · rw [if_pos hout, getD_drop]
    rw [hdlen] at hout
    have hdist : ringDist b.length o j = b.length - o + (j - 0) := by
      simp only [ringDist]; split_ifs <;> omega
    rw [hdist, if_pos (by omega)]
  · rw [if_neg hout, bufCopy_getD hj]
    rw [hdlen] at hout
    have htlen : (chunk.take (b.length - o)).length = b.length - o := by
      simp; omega
    rw [htlen]
    by_cases hin : o ≤ j ∧ j < o + (b.length - o)
    · rw [if_pos hin, getD_take (by omega)]
      have hdist : ringDist b.length o j = j - o := by
        simp only [ringDist]; split_ifs <;> omega
      rw [hdist, if_pos (by omega)]
    · rw [if_neg hin]
      have hdist : ringDist b.length o j = j + b.length - o := by
        simp only [ringDist]; split_ifs <;> omega
      rw [hdist, if_neg (by omega)]

/-! ## Aggregate description of a non-oversized `#write` -/

lemma writeInner_notBig {rb : RingBuffer} {chunk : List Nat}
    (hn : chunk.length ≤ rb.buffer.length) (hoff : rb.offset ≤ rb.buffer.length) :
    ∃ rb2 segs, rb.writeInner chunk = .ok (rb2, segs) ∧
      rb2.strict = rb.strict ∧ rb2.safe = rb.safe ∧
      rb2.totalOffset = rb.totalOffset ∧
      rb2.buffer.length = rb.buffer.length ∧
      ((rb.offset + chunk.length ≤ rb.buffer.length ∧
          rb2.offset = rb.offset + chunk.length ∧
          segs = .contiguous rb.offset (rb.offset + chunk.length)) ∨
        (rb.buffer.length < rb.offset + chunk.length ∧
          rb2.offset = chunk.length - (rb.buffer.length - rb.offset) ∧
          segs = .wrapped rb.offset (chunk.length - (rb.buffer.length - rb.offset)))) ∧
      ∀ j, j < rb.buffer.length →
        rb2.buffer.getD j 0 =
          if ringDist rb.buffer.length rb.offset j < chunk.length
          then chunk.getD (ringDist rb.buffer.length rb.offset j) 0
          else rb.buffer.getD j 0 := by
  by_cases hfit : rb.offset + chunk.length ≤ rb.buffer.length
  · refine ⟨_, _, writeInner_fit hfit, rfl, rfl, rfl, bufCopy_length _ _ _,
      Or.inl ⟨hfit, rfl, rfl⟩, fun j hj => ?_⟩
    exact bufCopy_fit_getD hfit hj
  · have hw : rb.buffer.length < rb.offset + chunk.length := by omega
    refine ⟨_, _, writeInner_wrap hn hw, rfl, rfl, rfl, ?_,
      Or.inr ⟨hw, rfl, rfl⟩, fun j hj => ?_⟩
    · rw [bufCopy_length, bufCopy_length]
    · exact bufCopy_wrap_getD hoff hn hw hj

lemma writeInner_ok_fields {rb : RingBuffer} {chunk : List Nat}
    {rb2 : RingBuffer} {segs : Segments}
    (h : rb.writeInner chunk = .ok (rb2, segs)) :
    rb2.strict = rb.strict ∧ rb2.safe = rb.safe ∧
      rb2.totalOffset = rb.totalOffset ∧ rb2.buffer.length = rb.buffer.length := by
  by_cases hbig : rb.buffer.length < chunk.length
  · rcases Bool.eq_false_or_eq_true rb.strict with hst | hst
    · rw [writeInner_strict_oversized hbig hst] at h
      exact absurd h (by simp)
    · rw [writeInner_oversized hbig hst] at h
      simp only [Except.ok.injEq, Prod.mk.injEq] at h
      obtain ⟨h1, -⟩ := h
      subst h1
      exact ⟨rfl, rfl, rfl, bufCopy_length _ _ _⟩
  · by_cases hfit : rb.offset + chunk.length ≤ rb.buffer.length
    · rw [writeInner_fit hfit] at h
      simp only [Except.ok.injEq, Prod.mk.injEq] at h
      obtain ⟨h1, -⟩ := h
      subst h1
      exact ⟨rfl, rfl, rfl, bufCopy_length _ _ _⟩
    · rw [writeInner_wrap (by omega) (by omega)] at h
      simp only [Except.ok.injEq, Prod.mk.injEq] at h
      obtain ⟨h1, -⟩ := h
      subst h1
      refine ⟨rfl, rfl, rfl, ?_⟩
      rw [bufCopy_length, bufCopy_length]

/-! ## Equations of the public `write` -/

lemma write_eq_untracked {rb : RingBuffer} (hs : rb.safe = false) (chunk : List Nat) :
    rb.write chunk = match rb.writeInner chunk with
      | .error e => .error e
      | .ok (rb2, segs) => .ok (rb2, ⟨segs, segs.isWrapped, none⟩) := by
  simp [RingBuffer.write, hs]

lemma write_eq_safe {rb : RingBuffer} (hs : rb.safe = true) (chunk : List Nat) :
    rb.write chunk = match rb.writeInner chunk with
      | .error e => .error e
      | .ok (rb2, segs) =>
          .ok ({ rb2 with totalOffset := rb2.totalOffset + chunk.length },
               ⟨segs, true, some (rb.totalOffset + rb.buffer.length)⟩) := by
  simp [RingBuffer.write, hs]

lemma write_ok_fields {s : RingBuffer} {c : List Nat} {s2 : RingBuffer} {v2 : View}
    (hw : s.write c = .ok (s2, v2)) :
    s2.strict = s.strict ∧ s2.safe = s.safe ∧
      s.totalOffset ≤ s2.totalOffset ∧ s2.buffer.length = s.buffer.length := by
  rcases Bool.eq_false_or_eq_true s.safe with hsf | hsf
  swap
  · rw [write_eq_untracked hsf] at hw
    cases hwi : s.writeInner c with
    | error e => rw [hwi] at hw; exact absurd hw (by simp)
    | ok p =>
        obtain ⟨rb2, segs⟩ := p
        rw [hwi] at hw
        simp only [Except.ok.injEq, Prod.mk.injEq] at hw
        obtain ⟨h1, -⟩ := hw
        subst h1
        obtain ⟨ha, hb, hc, hd⟩ := writeInner_ok_fields hwi
        exact ⟨ha, hb, le_of_eq hc.symm, hd⟩
  · rw [write_eq_safe hsf] at hw
    cases hwi : s.writeInner c with
    | error e => rw [hwi] at hw; exact absurd hw (by simp)
    | ok p =>
        obtain ⟨rb2, segs⟩ := p
        rw [hwi] at hw
        simp only [Except.ok.injEq, Prod.mk.injEq] at hw
        obtain ⟨h1, -⟩ := hw
        subst h1
        obtain ⟨ha, hb, hc, hd⟩ := writeInner_ok_fields hwi
        refine ⟨ha, hb, ?_, hd⟩
        show s.totalOffset ≤ rb2.totalOffset + c.length
        omega

/-! ## Reading a view whose bytes are intact -/

lemma View.read_none (segs : Segments) (bl : Bool) (rb : RingBuffer) :
    View.read ⟨segs, bl, none⟩ rb = .ok (segs.read rb.buffer) := rfl

lemma View.read_some (segs : Segments) (bl : Bool) (so : Nat) (rb : RingBuffer) :
    View.read ⟨segs, bl, some so⟩ rb =
      if so < rb.totalOffset then
        (if rb.strict then .error "buffer is no longer safe to access" else .ok [])
      else .ok (segs.read rb.buffer) := rfl

lemma read_eq_chunk {segs : Segments} {a cap : Nat} {chunk b : List Nat}
    (hb : b.length = cap) (hshape : SegShape segs a chunk.length cap)
    (hbytes : ∀ i, i < chunk.length → b.getD (ringPos cap a i) 0 = chunk.getD i 0) :
    segs.read b = chunk := by
  rcases hshape with ⟨rfl, hle⟩ | ⟨rfl, ha, hw, hn⟩
  · have hlen : (Segments.read (.contiguous a (a + chunk.length)) b).length
        = chunk.length := by
      simp only [Segments.read, List.length_drop, List.length_take, hb]
      omega
    refine eq_of_getD hlen fun i hi => ?_
    rw [hlen] at hi
    have h1 : (Segments.read (.contiguous a (a + chunk.length)) b).getD i 0
        = b.getD (a + i) 0 := by
      show ((b.take (a + chunk.length)).drop a).getD i 0 = _
      rw [getD_drop, getD_take (by omega)]
    rw [h1]
    have h2 : ringPos cap a i = a + i := by
      simp only [ringPos]; split_ifs <;> omega
    have h3 := hbytes i hi
    rwa [h2] at h3
  · have hlen : (Segments.read (.wrapped a (chunk.length - (cap - a))) b).length
        = chunk.length := by
      simp only [Segments.read, List.length_append, List.length_drop,
        List.length_take, hb]
      omega
    refine eq_of_getD hlen fun i hi => ?_
    rw [hlen] at hi
    show (b.drop a ++ b.take (chunk.length - (cap - a))).getD i 0 = chunk.getD i 0
    by_cases hfst : i < (b.drop a).length
    · rw [List.getD_append _ _ _ _ hfst, getD_drop]
      rw [List.length_drop, hb] at hfst
      have h2 : ringPos cap a i = a + i := by
        simp only [ringPos]; split_ifs <;> omega
      have h3 := hbytes i hi
      rwa [h2] at h3
    · rw [List.getD_append_right _ _ _ _ (by omega)]
      rw [List.length_drop, hb] at hfst
      rw [List.length_drop, hb, getD_take (by omega)]
      have h2 : ringPos cap a i = i - (cap - a) := by
        simp only [ringPos]; split_ifs <;> omega
      have h3 := hbytes i hi
      rwa [h2] at h3

/-! ## Preservation of the safe-view invariant across later writes -/

lemma viewInv_write {cap t0 a : Nat} {chunk : List Nat} {segs : Segments}
    {s : RingBuffer} {c : List Nat} {s2 : RingBuffer} {v2 : View}
    (hinv : ViewInv cap t0 a chunk segs s) (hw : s.write c = .ok (s2, v2)) :
    ViewInv cap t0 a chunk segs s2 := by
  obtain ⟨hlen, hoff, hsafe, hdisj⟩ := hinv
  rw [write_eq_safe hsafe] at hw
  by_cases hbig : s.buffer.length < c.length
  · rcases Bool.eq_false_or_eq_true s.strict with hst | hst
    · rw [writeInner_strict_oversized hbig hst] at hw
      exact absurd hw (by simp)
    · rw [writeInner_oversized hbig hst] at hw
      simp only [Except.ok.injEq, Prod.mk.injEq] at hw
      obtain ⟨h1, -⟩ := hw
      subst h1
      refine ⟨?_, hoff, hsafe, Or.inl ?_⟩
      · show (bufCopy s.buffer 0 _).length = cap
        rw [bufCopy_length]; exact hlen
      · show t0 + cap < s.totalOffset + c.length
        rcases hdisj with hstale | ⟨-, S, htot, hSn, -⟩ <;> omega
  · have hn : c.length ≤ s.buffer.length := by omega
    obtain ⟨rb2, segs2, heq, hst2, hsf2, hto2, hbl2, hcase, hpt⟩ :=
      writeInner_notBig hn (by rw [hlen]; exact hoff)
    rw [hlen] at hpt hcase hbl2 hn
    rw [heq] at hw
    simp only [Except.ok.injEq, Prod.mk.injEq] at hw
    obtain ⟨h1, -⟩ := hw
    subst h1
    refine ⟨hbl2, ?_, ?_, ?_⟩
    · show rb2.offset ≤ cap
      rcases hcase with ⟨hc1, hc2, -⟩ | ⟨hc1, hc2, -⟩ <;> omega
    · show rb2.safe = true
      rw [hsf2]; exact hsafe
    · rcases hdisj with hstale | ⟨hshape, S, htot, hSn, hbytes⟩
      · left
        show t0 + cap < rb2.totalOffset + c.length
        omega
      · by_cases hroom : chunk.length + (S + c.length) ≤ cap
        · right
          refine ⟨hshape, S + c.length, ?_, hroom, fun i hi => ?_⟩
          · show rb2.totalOffset + c.length = t0 + chunk.length + (S + c.length)
            omega
          · have hacap : a ≤ cap ∧ chunk.length ≤ cap := by
              rcases hshape with ⟨-, h2⟩ | ⟨-, h2, h3, h4⟩ <;> omega
            have hpos : ringPos cap a i < cap := ringPos_lt hacap.1 (by omega)
            obtain ⟨hbyte, hdist⟩ := hbytes i hi
            have hge : c.length ≤ ringDist cap s.offset (ringPos cap a i) := by
              rw [hdist]; omega
            have ho2 : (s.offset + c.length ≤ cap ∧ rb2.offset = s.offset + c.length) ∨
                (cap < s.offset + c.length ∧ rb2.offset = s.offset + c.length - cap) := by
              rcases hcase with ⟨hc1, hc2, -⟩ | ⟨hc1, hc2, -⟩
              · exact Or.inl ⟨hc1, hc2⟩
              · exact Or.inr ⟨hc1, by omega⟩
            constructor
            · show rb2.buffer.getD (ringPos cap a i) 0 = chunk.getD i 0
              rw [hpt (ringPos cap a i) hpos, if_neg (by omega)]
              exact hbyte
            · show ringDist cap rb2.offset (ringPos cap a i)
                = cap + i - (chunk.length + (S + c.length))
              rw [ringDist_step hoff hn hpos ho2 hge, hdist]
              omega
        · left
          show t0 + cap < rb2.totalOffset + c.length
          omega

/-! ## The invariant right after a safe-mode write -/

lemma write_safe_init {rb : RingBuffer} {chunk : List Nat} {rb1 : RingBuffer}
    {v : View} (hsafe : rb.safe = true) (hoff : rb.offset ≤ rb.buffer.length)
    (hw : rb.write chunk = .ok (rb1, v)) :
    v = ⟨v.segs, true, some (rb.totalOffset + rb.buffer.length)⟩ ∧
      ViewInv rb.buffer.length rb.totalOffset rb.offset chunk v.segs rb1 := by
  rw [write_eq_safe hsafe] at hw
  by_cases hbig : rb.buffer.length < chunk.length
  · rcases Bool.eq_false_or_eq_true rb.strict with hst | hst
    · rw [writeInner_strict_oversized hbig hst] at hw
      exact absurd hw (by simp)
    · rw [writeInner_oversized hbig hst] at hw
      simp only [Except.ok.injEq, Prod.mk.injEq] at hw
      obtain ⟨h1, h2⟩ := hw
      subst h1
      subst h2
      refine ⟨rfl, ?_, hoff, hsafe, Or.inl ?_⟩
      · show (bufCopy rb.buffer 0 _).length = rb.buffer.length
        rw [bufCopy_length]
      · show rb.totalOffset + rb.buffer.length < rb.totalOffset + chunk.length
        omega
  · have hn : chunk.length ≤ rb.buffer.length := by omega
    obtain ⟨rb2, segs2, heq, hst2, hsf2, hto2, hbl2, hcase, hpt⟩ :=
      writeInner_notBig hn hoff
    rw [heq] at hw
    simp only [Except.ok.injEq, Prod.mk.injEq] at hw
    obtain ⟨h1, h2⟩ := hw
    subst h1
    subst h2
    refine ⟨rfl, hbl2, ?_, ?_, Or.inr ⟨?_, 0, ?_, by omega, fun i hi => ?_⟩⟩
    · show rb2.offset ≤ rb.buffer.length
      rcases hcase with ⟨hc1, hc2, -⟩ | ⟨hc1, hc2, -⟩ <;> omega
    · show rb2.safe = true
      rw [hsf2]; exact hsafe
    · rcases hcase with ⟨hc1, -, hc3⟩ | ⟨hc1, -, hc3⟩
      · exact Or.inl ⟨hc3, hc1⟩
      · exact Or.inr ⟨hc3, hoff, hc1, hn⟩
    · show rb2.totalOffset + chunk.length = rb.totalOffset + chunk.length + 0
      omega
    · have hpos : ringPos rb.buffer.length rb.offset i < rb.buffer.length :=
        ringPos_lt hoff (by omega)
      have hdd : ringDist rb.buffer.length rb.offset
          (ringPos rb.buffer.length rb.offset i) = i :=
        ringDist_ringPos_self hoff hi hn
      have ho2 : (rb.offset + chunk.length ≤ rb.buffer.length ∧
            rb2.offset = rb.offset + chunk.length) ∨
          (rb.buffer.length < rb.offset + chunk.length ∧
            rb2.offset = rb.offset + chunk.length - rb.buffer.length) := by
        rcases hcase with ⟨hc1, hc2, -⟩ | ⟨hc1, hc2, -⟩
        · exact Or.inl ⟨hc1, hc2⟩
        · exact Or.inr ⟨hc1, by omega⟩
      constructor
      · show rb2.buffer.getD (ringPos rb.buffer.length rb.offset i) 0
          = chunk.getD i 0
        rw [hpt _ hpos, hdd, if_pos hi]
      · show ringDist rb.buffer.length rb2.offset
            (ringPos rb.buffer.length rb.offset i)
          = rb.buffer.length + i - (chunk.length + 0)
        rw [ringDist_newOffset hoff hi hn ho2]
        omega

lemma writeStep_viewInv {cap t0 a : Nat} {chunk : List Nat} {segs : Segments}
    {s : RingBuffer} {c : List Nat} (hinv : ViewInv cap t0 a chunk segs s) :
    ViewInv cap t0 a chunk segs (s.writeStep c) := by
  unfold RingBuffer.writeStep
  cases hw : s.write c with
  | error e => exact hinv
  | ok p =>
      obtain ⟨s2, v2⟩ := p
      exact viewInv_write hinv hw

lemma writeStep_strict (s : RingBuffer) (c : List Nat) :
    (s.writeStep c).strict = s.strict := by
  unfold RingBuffer.writeStep
  cases hw : s.write c with
  | error e => rfl
  | ok p =>
      obtain ⟨s2, v2⟩ := p
      exact (write_ok_fields hw).1

/-! ## Reading a safe view after any sequence of later writes -/

lemma read_writeMany {cap t0 a : Nat} {chunk : List Nat} {segs : Segments}
    {str : Bool} (cs : List (List Nat)) (s : RingBuffer)
    (hstr : s.strict = str) (hinv : ViewInv cap t0 a chunk segs s) :
    View.read ⟨segs, true, some (t0 + cap)⟩ (s.writeMany cs) =
      if t0 + cap < (s.writeMany cs).totalOffset then
        (if str then Except.error "buffer is no longer safe to access"
          else Except.ok [])
      else Except.ok chunk := by
  induction cs generalizing s with
  | nil =>
      obtain ⟨hlen, hoff, hsafe, hdisj⟩ := hinv
      simp only [RingBuffer.writeMany]
      rw [View.read_some]
      by_cases hstale : t0 + cap < s.totalOffset
      · rw [if_pos hstale, if_pos hstale, hstr]
      · rw [if_neg hstale, if_neg hstale]
        rcases hdisj with h | ⟨hshape, S, htot, hSn, hbytes⟩
        · exact absurd h hstale
        · rw [read_eq_chunk hlen hshape fun i hi => (hbytes i hi).1]
  | cons c cs ih =>
      simp only [RingBuffer.writeMany]
      exact ih (s.writeStep c) (by rw [writeStep_strict, hstr]) (writeStep_viewInv hinv)

/-! ## Further write helpers -/

lemma writeInner_reads_back {rb : RingBuffer} {chunk : List Nat}
    {rb2 : RingBuffer} {segs2 : Segments}
    (hoff : rb.offset ≤ rb.buffer.length) (hn : chunk.length ≤ rb.buffer.length)
    (hw : rb.writeInner chunk = .ok (rb2, segs2)) :
    segs2.read rb2.buffer = chunk ∧
      SegShape segs2 rb.offset chunk.length rb.buffer.length := by
  obtain ⟨rb2', segs2', heq, -, -, -, hbl2, hcase, hpt⟩ := writeInner_notBig hn hoff
  rw [heq] at hw
  simp only [Except.ok.injEq, Prod.mk.injEq] at hw
  obtain ⟨h1, h2⟩ := hw
  subst h1
  subst h2
  have hshape : SegShape segs2' rb.offset chunk.length rb.buffer.length := by
    rcases hcase with ⟨hc1, -, hc3⟩ | ⟨hc1, -, hc3⟩
    · exact Or.inl ⟨hc3, hc1⟩
    · exact Or.inr ⟨hc3, hoff, hc1, hn⟩
  refine ⟨read_eq_chunk hbl2 hshape fun i hi => ?_, hshape⟩
  have hpos : ringPos rb.buffer.length rb.offset i < rb.buffer.length :=
    ringPos_lt hoff (by omega)
  rw [hpt _ hpos, ringDist_ringPos_self hoff hi hn, if_pos hi]

lemma writeInner_ok_of_small {rb : RingBuffer} {chunk : List Nat}
    (hn : chunk.length ≤ rb.buffer.length) :
    ∃ q, rb.writeInner chunk = .ok q := by
  by_cases hfit : rb.offset + chunk.length ≤ rb.buffer.length
  · exact ⟨_, writeInner_fit hfit⟩
  · exact ⟨_, writeInner_wrap hn (by omega)⟩

lemma write_ok_of_small {rb : RingBuffer} {chunk : List Nat}
    (hn : chunk.length ≤ rb.buffer.length) :
    ∃ p, rb.write chunk = .ok p := by
  obtain ⟨⟨rb2, segs2⟩, hq⟩ := writeInner_ok_of_small hn
  rcases Bool.eq_false_or_eq_true rb.safe with hsf | hsf
  · rw [write_eq_safe hsf, hq]
    exact ⟨_, rfl⟩
  · rw [write_eq_untracked hsf, hq]
    exact ⟨_, rfl⟩

lemma writeInner_ok_offset {rb : RingBuffer} {chunk : List Nat}
    {rb2 : RingBuffer} {segs : Segments}
    (h : rb.writeInner chunk = .ok (rb2, segs))
    (hoff : rb.offset ≤ rb.buffer.length) :
    rb2.offset ≤ rb2.buffer.length := by
  by_cases hbig : rb.buffer.length < chunk.length
  · rcases Bool.eq_false_or_eq_true rb.strict with hst | hst
    · rw [writeInner_strict_oversized hbig hst] at h
      exact absurd h (by simp)
    · rw [writeInner_oversized hbig hst] at h
      simp only [Except.ok.injEq, Prod.mk.injEq] at h
      obtain ⟨h1, -⟩ := h
      subst h1
      show rb.offset ≤ (bufCopy rb.buffer 0 _).length
      rw [bufCopy_length]
      exact hoff
  · obtain ⟨rb2', segs2', heq, -, -, -, hbl2, hcase, -⟩ :=
      writeInner_notBig (show chunk.length ≤ rb.buffer.length by omega) hoff
    rw [heq] at h
    simp only [Except.ok.injEq, Prod.mk.injEq] at h
    obtain ⟨h1, -⟩ := h
    subst h1
    rw [hbl2]
    rcases hcase with ⟨hc1, hc2, -⟩ | ⟨hc1, hc2, -⟩ <;> omega

lemma write_ok_offset {s : RingBuffer} {c : List Nat} {s2 : RingBuffer} {v2 : View}
    (hw : s.write c = .ok (s2, v2)) (hoff : s.offset ≤ s.buffer.length) :
    s2.offset ≤ s2.buffer.length := by
  rcases Bool.eq_false_or_eq_true s.safe with hsf | hsf
  · rw [write_eq_safe hsf] at hw
    cases hwi : s.writeInner c with
    | error e => rw [hwi] at hw; exact absurd hw (by simp)
    | ok p =>
        obtain ⟨rb2, segs⟩ := p
        rw [hwi] at hw
        simp only [Except.ok.injEq, Prod.mk.injEq] at hw
        obtain ⟨h1, -⟩ := hw
        subst h1
        show rb2.offset ≤ rb2.buffer.length
        exact writeInner_ok_offset hwi hoff
  · rw [write_eq_untracked hsf] at hw
    cases hwi : s.writeInner c with
    | error e => rw [hwi] at hw; exact absurd hw (by simp)
    | ok p =>
        obtain ⟨rb2, segs⟩ := p
        rw [hwi] at hw
        simp only [Except.ok.injEq, Prod.mk.injEq] at hw
        obtain ⟨h1, -⟩ := hw
        subst h1
        exact writeInner_ok_offset hwi hoff

lemma writeStep_offset_le {s : RingBuffer} (c : List Nat)
    (hoff : s.offset ≤ s.buffer.length) :
    (s.writeStep c).offset ≤ (s.writeStep c).buffer.length := by
  unfold RingBuffer.writeStep
  cases hw : s.write c with
  | error e => exact hoff
  | ok p =>
      obtain ⟨s2, v2⟩ := p
      exact write_ok_offset hw hoff

lemma writeMany_offset_le (cs : List (List Nat)) (s : RingBuffer)
    (hoff : s.offset ≤ s.buffer.length) :
    (s.writeMany cs).offset ≤ (s.writeMany cs).buffer.length := by
  induction cs generalizing s with
  | nil => exact hoff
  | cons c cs ih =>
      simp only [RingBuffer.writeMany]
      exact ih (s.writeStep c) (writeStep_offset_le c hoff)

lemma construct_eq {size : Int} {st sf : Bool} (h : 0 ≤ size) :
    RingBuffer.construct size st sf =
      .ok ⟨List.replicate size.toNat 0, 0, st, sf, 0⟩ := by
  rw [RingBuffer.construct, if_neg (by omega)]

lemma construct_neg {size : Int} {st sf : Bool} (h : size < 0) :
    RingBuffer.construct size st sf =
      .error "The value of size is out of range" := by
  rw [RingBuffer.construct, if_pos h]

lemma construct_ok_elim {size : Int} {st sf : Bool} {rb0 : RingBuffer}
    (h : RingBuffer.construct size st sf = .ok rb0) :
    0 ≤ size ∧ rb0 = ⟨List.replicate size.toNat 0, 0, st, sf, 0⟩ := by
  by_cases hsz : size < 0
  · rw [construct_neg hsz] at h
    exact absurd h (by simp)
  · rw [construct_eq (by omega)] at h
    simp only [Except.ok.injEq] at h
    exact ⟨by omega, h.symm⟩

/-- Full description of a write that takes the wrap branch, in either
tracking mode: the returned view, the new offset, and the fact that the
view read back right after the write is the chunk itself. -/
lemma write_wrap_spec {rb : RingBuffer} {chunk : List Nat}
    (hoff : rb.offset ≤ rb.buffer.length) (hn : chunk.length ≤ rb.buffer.length)
    (hwrap : rb.buffer.length < rb.offset + chunk.length) :
    ∃ rb1 v, rb.write chunk = .ok (rb1, v) ∧
      v.segs = .wrapped rb.offset (chunk.length - (rb.buffer.length - rb.offset)) ∧
      rb1.offset = chunk.length - (rb.buffer.length - rb.offset) ∧
      v.segs.read rb1.buffer = chunk ∧
      v.read rb1 = .ok chunk := by
  have hwi := writeInner_wrap hn hwrap
  have hread := writeInner_reads_back hoff hn hwi
  rcases Bool.eq_false_or_eq_true rb.safe with hsf | hsf
  · rw [write_eq_safe hsf, hwi]
    refine ⟨_, _, rfl, rfl, rfl, hread.1, ?_⟩
    have hcond : ¬ (rb.totalOffset + rb.buffer.length
        < rb.totalOffset + chunk.length) := by omega
    rw [View.read_some, if_neg hcond, hread.1]
  · rw [write_eq_untracked hsf, hwi]
    refine ⟨_, _, rfl, rfl, rfl, hread.1, ?_⟩
    rw [View.read_none, hread.1]

/-! ## Claim theorems -/

/-- C1: a write of a chunk of length `n ≤ capacity` with
`cursor + n > capacity` takes the wrap branch: the returned view is the
two-segment view of `storage[cursor : capacity]` followed by
`storage[0 : n - remaining]` (with `remaining = capacity - cursor`), the
in-order concatenation of the two segments immediately after the write
equals the written chunk byte for byte (so the view has logical length
`n`), and the cursor is advanced to `n - remaining`. -/
theorem wrap_write_two_segment_concat {rb : RingBuffer} {chunk : List Nat}
    (hoff : rb.offset ≤ rb.buffer.length) (hn : chunk.length ≤ rb.buffer.length)
    (hwrap : rb.buffer.length < rb.offset + chunk.length) :
    ∃ rb1 v, rb.write chunk = .ok (rb1, v) ∧
      v.segs = .wrapped rb.offset (chunk.length - (rb.buffer.length - rb.offset)) ∧
      rb1.buffer.drop rb.offset ++
          rb1.buffer.take (chunk.length - (rb.buffer.length - rb.offset)) = chunk ∧
      rb1.offset = chunk.length - (rb.buffer.length - rb.offset) ∧
      v.read rb1 = .ok chunk := by
  obtain ⟨rb1, v, hw, hsegs, hoff1, hconcat, hread⟩ := write_wrap_spec hoff hn hwrap
  rw [hsegs] at hconcat
  exact ⟨rb1, v, hw, hsegs, hconcat, hoff1, hread⟩

/-- Witness for C1 at a concrete wrapping write: capacity 2, cursor 1,
chunk `[1, 2]`. -/
theorem wrap_write_two_segment_concat_witness :
    ∃ rb1 v, RingBuffer.write ⟨[9, 9], 1, false, false, 0⟩ [1, 2] = .ok (rb1, v) ∧
      v.segs = .wrapped 1 (2 - (2 - 1)) ∧
      rb1.buffer.drop 1 ++ rb1.buffer.take (2 - (2 - 1)) = [1, 2] ∧
      rb1.offset = 2 - (2 - 1) ∧
      v.read rb1 = .ok [1, 2] :=
  wrap_write_two_segment_concat (by decide) (by decide) (by decide)

/-- C10: a write taken by the wrap branch always returns a second segment
of positive length `n - remaining ≥ 1`; the first segment
`storage[cursor : capacity]` has zero length exactly when the cursor was
at `capacity`, and even then the returned view is the two-segment
wrapped kind, not a contiguous one. -/
theorem wrap_second_segment_positive {rb : RingBuffer} {chunk : List Nat}
    (hoff : rb.offset ≤ rb.buffer.length) (hn : chunk.length ≤ rb.buffer.length)
    (hwrap : rb.buffer.length < rb.offset + chunk.length) :
    ∃ rb1 v, rb.write chunk = .ok (rb1, v) ∧
      v.segs = .wrapped rb.offset (chunk.length - (rb.buffer.length - rb.offset)) ∧
      1 ≤ chunk.length - (rb.buffer.length - rb.offset) ∧
      (rb.buffer.length - rb.offset = 0 ↔ rb.offset = rb.buffer.length) ∧
      v.segs.isWrapped = true := by
  obtain ⟨rb1, v, hw, hsegs, -, -, -⟩ := write_wrap_spec hoff hn hwrap
  refine ⟨rb1, v, hw, hsegs, by omega, by omega, ?_⟩
  rw [hsegs]
  rfl

/-- Witness for C10 at the boundary case `cursor = capacity`: capacity 1,
cursor 1, one-byte chunk; the first segment is empty yet the view is the
wrapped kind. -/
theorem wrap_second_segment_positive_witness :
    ∃ rb1 v, RingBuffer.write ⟨[9], 1, false, false, 0⟩ [7] = .ok (rb1, v) ∧
      v.segs = .wrapped 1 (1 - (1 - 1)) ∧
      1 ≤ 1 - (1 - 1) ∧
      (1 - 1 = 0 ↔ 1 = 1) ∧
      v.segs.isWrapped = true :=
  wrap_second_segment_positive (by decide) (by decide) (by decide)

/-- C3 counterexample: write one byte into a fresh capacity-2 buffer
(cursor becomes 1), then a 3-byte oversized chunk in non-strict mode.
The last 2 bytes are copied to offset 0, but the cursor stays at 1:
the claim's "the cursor is set to 0 afterward" is false on the code. -/
theorem oversized_write_cursor_cex :
    RingBuffer.write ⟨[0, 0], 0, false, false, 0⟩ [1] =
      .ok (⟨[1, 0], 1, false, false, 0⟩, ⟨.contiguous 0 1, false, none⟩) ∧
    RingBuffer.write ⟨[1, 0], 1, false, false, 0⟩ [2, 3, 4] =
      .ok (⟨[3, 4], 1, false, false, 0⟩, ⟨.whole, false, none⟩) ∧
    (⟨[3, 4], 1, false, false, 0⟩ : RingBuffer).offset ≠ 0 :=
  ⟨rfl, rfl, by decide⟩

/-- C3 (amended): a non-strict write of a chunk longer than the capacity
copies exactly the last `capacity` bytes of the chunk into storage at
offset 0 (overwriting the whole backing region), and the returned view
is the contiguous whole storage of length `capacity`; amended per the
counterexample: the cursor is left unchanged, not set to 0. -/
theorem oversized_write_truncates {rb : RingBuffer} {chunk : List Nat}
    (hst : rb.strict = false) (hbig : rb.buffer.length < chunk.length) :
    ∃ rb1 v, rb.write chunk = .ok (rb1, v) ∧
      rb1.buffer = chunk.drop (chunk.length - rb.buffer.length) ∧
      rb1.buffer.length = rb.buffer.length ∧
      v.segs = .whole ∧
      Segments.read v.segs rb1.buffer
        = chunk.drop (chunk.length - rb.buffer.length) ∧
      rb1.offset = rb.offset := by
  have hlen : (chunk.drop (chunk.length - rb.buffer.length)).length
      = rb.buffer.length := by
    simp only [List.length_drop]
    omega
  have hbuf : bufCopy rb.buffer 0 (chunk.drop (chunk.length - rb.buffer.length))
      = chunk.drop (chunk.length - rb.buffer.length) := bufCopy_zero_full hlen
  rcases Bool.eq_false_or_eq_true rb.safe with hsf | hsf
  · rw [write_eq_safe hsf, writeInner_oversized hbig hst]
    refine ⟨_, _, rfl, hbuf, ?_, rfl, hbuf, rfl⟩
    show (bufCopy rb.buffer 0 _).length = rb.buffer.length
    exact bufCopy_length _ _ _
  · rw [write_eq_untracked hsf, writeInner_oversized hbig hst]
    refine ⟨_, _, rfl, hbuf, ?_, rfl, hbuf, rfl⟩
    show (bufCopy rb.buffer 0 _).length = rb.buffer.length
    exact bufCopy_length _ _ _

/-- Witness for the amended C3: capacity 2, cursor 1, oversized chunk
`[2, 3, 4]`. -/
theorem oversized_write_truncates_witness :
    ∃ rb1 v, RingBuffer.write ⟨[1, 0], 1, false, false, 0⟩ [2, 3, 4] = .ok (rb1, v) ∧
      rb1.buffer = [2, 3, 4].drop (3 - 2) ∧
      rb1.buffer.length = 2 ∧
      v.segs = .whole ∧
      Segments.read v.segs rb1.buffer = [2, 3, 4].drop (3 - 2) ∧
      rb1.offset = 1 :=
  oversized_write_truncates rfl (by decide)

/-- C4 counterexample: writing one byte into a fresh capacity-1 buffer
leaves the cursor at 1 = capacity, so the claimed strict invariant
`cursor < capacity` after every write is false on the code. -/
theorem cursor_reaches_capacity_cex :
    RingBuffer.construct 1 false false = .ok ⟨[0], 0, false, false, 0⟩ ∧
    RingBuffer.write ⟨[0], 0, false, false, 0⟩ [7] =
      .ok (⟨[7], 1, false, false, 0⟩, ⟨.contiguous 0 1, false, none⟩) ∧
    ¬ ((⟨[7], 1, false, false, 0⟩ : RingBuffer).offset
        < (⟨[7], 1, false, false, 0⟩ : RingBuffer).buffer.length) :=
  ⟨rfl, rfl, by decide⟩

/-- C4 (amended): for every buffer returned by the constructor and every
finite sequence of `write` calls, `0 ≤ cursor ≤ capacity` holds after
every write; the bound `cursor = capacity` is reached exactly by a write
filling the buffer to capacity (the next write then wraps with
`remaining = 0`). -/
theorem cursor_le_capacity {size : Int} {st sf : Bool} {rb0 : RingBuffer}
    (h0 : RingBuffer.construct size st sf = .ok rb0) (cs : List (List Nat)) :
    (rb0.writeMany cs).offset ≤ (rb0.writeMany cs).buffer.length := by
  obtain ⟨-, rfl⟩ := construct_ok_elim h0
  exact writeMany_offset_le cs _ (Nat.zero_le _)

/-- Witness for the amended C4: capacity 1, writes `[7]` then `[8]`. -/
theorem cursor_le_capacity_witness :
    (RingBuffer.writeMany ⟨[0], 0, false, false, 0⟩ [[7], [8]]).offset ≤
      (RingBuffer.writeMany ⟨[0], 0, false, false, 0⟩ [[7], [8]]).buffer.length :=
  @cursor_le_capacity 1 false false ⟨[0], 0, false, false, 0⟩ rfl [[7], [8]]

/-- C5: in strict mode a chunk longer than the capacity is rejected with
the chunk-too-large error; the throw happens before any copy or field
update, so the state is untouched (no successor state exists for the
call), and any subsequent write of a chunk that fits succeeds. -/
theorem strict_oversized_rejected {rb : RingBuffer} {chunk : List Nat}
    (hst : rb.strict = true) (hbig : rb.buffer.length < chunk.length) :
    rb.write chunk = .error "chunk length exceeds size of ring buffer" ∧
      ∀ c2 : List Nat, c2.length ≤ rb.buffer.length →
        ∃ p, rb.write c2 = .ok p := by
  constructor
  · rcases Bool.eq_false_or_eq_true rb.safe with hsf | hsf
    · rw [write_eq_safe hsf, writeInner_strict_oversized hbig hst]
    · rw [write_eq_untracked hsf, writeInner_strict_oversized hbig hst]
  · exact fun c2 h2 => write_ok_of_small h2

/-- Witness for C5: strict capacity-1 buffer, oversized `[1, 2]` rejected,
then `[5]` accepted. -/
theorem strict_oversized_rejected_witness :
    RingBuffer.write ⟨[0], 0, true, false, 0⟩ [1, 2] =
      .error "chunk length exceeds size of ring buffer" ∧
    ∃ p, RingBuffer.write ⟨[0], 0, true, false, 0⟩ [5] = .ok p :=
  ⟨(strict_oversized_rejected rfl (by decide)).1,
    (@strict_oversized_rejected ⟨[0], 0, true, false, 0⟩ [1, 2] rfl
      (by decide)).2 [5] (by decide)⟩

/-- C2 (amended): in tracked (safe) mode every read of a returned view
first compares the live `totalWritten` against the view's stamped
`safeUntil = totalWritten-before-the-write + capacity`; the read fails
with the stale-view error (strict) or yields the empty sequence
(non-strict) exactly when the live total has advanced STRICTLY past
`safeUntil` (amended from the claim's "advanced to or past"), and
otherwise — after any sequence of later writes — returns exactly the
bytes written by the creating call. -/
theorem tracked_read_staleness_guard {rb : RingBuffer} {chunk : List Nat}
    {rb1 : RingBuffer} {v : View} (cs : List (List Nat))
    (hsafe : rb.safe = true) (hoff : rb.offset ≤ rb.buffer.length)
    (hw : rb.write chunk = .ok (rb1, v)) :
    v.safeOffset = some (rb.totalOffset + rb.buffer.length) ∧
      v.read (rb1.writeMany cs) =
        if rb.totalOffset + rb.buffer.length
            < (rb1.writeMany cs).totalOffset then
          (if rb.strict then Except.error "buffer is no longer safe to access"
            else Except.ok [])
        else Except.ok chunk := by
  obtain ⟨hv, hinv⟩ := write_safe_init hsafe hoff hw
  have hstr1 : rb1.strict = rb.strict := (write_ok_fields hw).1
  have hmain := read_writeMany cs rb1 hstr1 hinv
  refine ⟨?_, ?_⟩
  · rw [hv]
  · conv_lhs => rw [hv]
    exact hmain

/-- Witness for the amended C2: capacity 2, tracked, non-strict; after a
two-byte write and one further one-byte write the view is stale and the
read yields the empty sequence. -/
theorem tracked_read_staleness_guard_witness :
    View.read ⟨.contiguous 0 2, true, some 2⟩
        (RingBuffer.writeMany ⟨[3, 4], 2, false, true, 2⟩ [[5]]) = .ok [] := by
  have h := @tracked_read_staleness_guard ⟨[0, 0], 0, false, true, 0⟩ [3, 4]
    ⟨[3, 4], 2, false, true, 2⟩ ⟨.contiguous 0 2, true, some 2⟩ [[5]]
    rfl (by decide) rfl
  rw [h.2]
  rfl

/-- C2 counterexample: capacity 1, tracked, non-strict. After writing one
byte the live `totalWritten` (1) has advanced exactly TO the view's
`safeUntil` (0 + 1); the claim then requires an empty read, but the code
compares strictly and still returns the byte. -/
theorem tracked_boundary_read_cex :
    RingBuffer.write ⟨[0], 0, false, true, 0⟩ [171] =
      .ok (⟨[171], 1, false, true, 1⟩, ⟨.contiguous 0 1, true, some 1⟩) ∧
    (⟨[171], 1, false, true, 1⟩ : RingBuffer).totalOffset = 1 ∧
    View.read ⟨.contiguous 0 1, true, some 1⟩ ⟨[171], 1, false, true, 1⟩
      = .ok [171] ∧
    [171] ≠ ([] : List Nat) :=
  ⟨rfl, rfl, rfl, by decide⟩

/-- C6 (amended): `totalWritten` starts at 0 at construction, and every
successful tracked write advances it by the full chunk length `n` — even
when an oversized chunk was truncated to `capacity` bytes — not by
`min(n, capacity)` as claimed. -/
theorem totalWritten_full_increment {size : Int} {st : Bool} {rb0 : RingBuffer}
    {rb : RingBuffer} {c : List Nat} {rb2 : RingBuffer} {v : View}
    (h0 : RingBuffer.construct size st true = .ok rb0)
    (hs : rb.safe = true) (hw : rb.write c = .ok (rb2, v)) :
    rb0.totalOffset = 0 ∧ rb2.totalOffset = rb.totalOffset + c.length := by
  refine ⟨?_, ?_⟩
  · obtain ⟨-, rfl⟩ := construct_ok_elim h0
    rfl
  · rw [write_eq_safe hs] at hw
    cases hwi : rb.writeInner c with
    | error e => rw [hwi] at hw; exact absurd hw (by simp)
    | ok p =>
        obtain ⟨rb2i, segs⟩ := p
        rw [hwi] at hw
        simp only [Except.ok.injEq, Prod.mk.injEq] at hw
        obtain ⟨h1, -⟩ := hw
        subst h1
        show rb2i.totalOffset + c.length = rb.totalOffset + c.length
        rw [(writeInner_ok_fields hwi).2.2.1]

/-- Witness for the amended C6: capacity 1, tracked, oversized chunk
`[7, 8]` advancing `totalWritten` from 0 by the full length 2. -/
theorem totalWritten_full_increment_witness :
    (⟨[0], 0, false, true, 0⟩ : RingBuffer).totalOffset = 0 ∧
    (⟨[8], 0, false, true, 2⟩ : RingBuffer).totalOffset =
      (⟨[0], 0, false, true, 0⟩ : RingBuffer).totalOffset
        + ([7, 8] : List Nat).length :=
  @totalWritten_full_increment 1 false ⟨[0], 0, false, true, 0⟩
    ⟨[0], 0, false, true, 0⟩ [7, 8] ⟨[8], 0, false, true, 2⟩
    ⟨.whole, true, some 1⟩ rfl rfl rfl

/-- C6 counterexample: capacity 1, tracked, non-strict, oversized chunk
`[7, 8]` (n = 2): only 1 byte is retained, yet `totalWritten` advances
by 2 and not by `min(n, capacity) = 1` as the claim states. -/
theorem totalWritten_min_cex :
    RingBuffer.write ⟨[0], 0, false, true, 0⟩ [7, 8] =
      .ok (⟨[8], 0, false, true, 2⟩, ⟨.whole, true, some 1⟩) ∧
    (⟨[8], 0, false, true, 2⟩ : RingBuffer).totalOffset ≠ 0 + min 2 1 :=
  ⟨rfl, by decide⟩

/-- C7: the capacity-10 scenario of the repository's tests: writing
`abcdef`, `123456`, `7890fe`, `dcba09` in order. The fourth write wraps
and its view reads `dcba09`; re-reading the first write's view afterwards
yields `ba09ef` — views re-read live storage at the offsets recorded at
creation, so the partial overwrite is visible through the old view. -/
theorem live_views_partial_overwrite :
    RingBuffer.write ⟨[0, 0, 0, 0, 0, 0, 0, 0, 0, 0], 0, false, false, 0⟩
        [0xab, 0xcd, 0xef] =
      .ok (⟨[0xab, 0xcd, 0xef, 0, 0, 0, 0, 0, 0, 0], 3, false, false, 0⟩,
           ⟨.contiguous 0 3, false, none⟩) ∧
    RingBuffer.write ⟨[0xab, 0xcd, 0xef, 0, 0, 0, 0, 0, 0, 0], 3, false, false, 0⟩
        [0x12, 0x34, 0x56] =
      .ok (⟨[0xab, 0xcd, 0xef, 0x12, 0x34, 0x56, 0, 0, 0, 0], 6, false, false, 0⟩,
           ⟨.contiguous 3 6, false, none⟩) ∧
    RingBuffer.write
        ⟨[0xab, 0xcd, 0xef, 0x12, 0x34, 0x56, 0, 0, 0, 0], 6, false, false, 0⟩
        [0x78, 0x90, 0xfe] =
      .ok (⟨[0xab, 0xcd, 0xef, 0x12, 0x34, 0x56, 0x78, 0x90, 0xfe, 0], 9,
            false, false, 0⟩,
           ⟨.contiguous 6 9, false, none⟩) ∧
    RingBuffer.write
        ⟨[0xab, 0xcd, 0xef, 0x12, 0x34, 0x56, 0x78, 0x90, 0xfe, 0], 9,
          false, false, 0⟩
        [0xdc, 0xba, 0x09] =
      .ok (⟨[0xba, 0x09, 0xef, 0x12, 0x34, 0x56, 0x78, 0x90, 0xfe, 0xdc], 2,
            false, false, 0⟩,
           ⟨.wrapped 9 2, true, none⟩) ∧
    View.read ⟨.wrapped 9 2, true, none⟩
        ⟨[0xba, 0x09, 0xef, 0x12, 0x34, 0x56, 0x78, 0x90, 0xfe, 0xdc], 2,
          false, false, 0⟩
      = .ok [0xdc, 0xba, 0x09] ∧
    View.read ⟨.contiguous 0 3, false, none⟩
        ⟨[0xba, 0x09, 0xef, 0x12, 0x34, 0x56, 0x78, 0x90, 0xfe, 0xdc], 2,
          false, false, 0⟩
      = .ok [0xba, 0x09, 0xef] :=
  ⟨rfl, rfl, rfl, rfl, rfl, rfl⟩

/-- C8 (amended): the Buffer-vs-BufferList type check (it touches no
proxied property, hence triggers no staleness check) distinguishes the
contiguous from the wrapped kind only in non-tracked mode: there a write
returns the `BufferList` kind exactly when it took the wrap branch.  In
tracked mode every returned view is wrapped in a `BufferList` behind the
proxy, so the check reports the composite kind even for non-wrapping
writes (amended from the claim's "in every mode"). -/
theorem view_kind_check :
    (∀ (rb : RingBuffer) (c : List Nat) (rb1 : RingBuffer) (v : View),
        rb.safe = false → rb.write c = .ok (rb1, v) →
        v.isBufferList = v.segs.isWrapped ∧
          (v.segs.isWrapped = true ↔
            (c.length ≤ rb.buffer.length ∧
              rb.buffer.length < rb.offset + c.length))) ∧
    (∀ (rb : RingBuffer) (c : List Nat) (rb1 : RingBuffer) (v : View),
        rb.safe = true → rb.write c = .ok (rb1, v) →
        v.isBufferList = true) := by
  constructor
  · intro rb c rb1 v hsf hw
    rw [write_eq_untracked hsf] at hw
    by_cases hbig : rb.buffer.length < c.length
    · rcases Bool.eq_false_or_eq_true rb.strict with hst | hst
      · rw [writeInner_strict_oversized hbig hst] at hw
        exact absurd hw (by simp)
      · rw [writeInner_oversized hbig hst] at hw
        simp only [Except.ok.injEq, Prod.mk.injEq] at hw
        obtain ⟨-, h2⟩ := hw
        subst h2
        exact ⟨rfl, iff_of_false (by simp [Segments.isWrapped]) (by omega)⟩
    · by_cases hfit : rb.offset + c.length ≤ rb.buffer.length
      · rw [writeInner_fit hfit] at hw
        simp only [Except.ok.injEq, Prod.mk.injEq] at hw
        obtain ⟨-, h2⟩ := hw
        subst h2
        exact ⟨rfl, iff_of_false (by simp [Segments.isWrapped]) (by omega)⟩
      · rw [writeInner_wrap (by omega) (by omega)] at hw
        simp only [Except.ok.injEq, Prod.mk.injEq] at hw
        obtain ⟨-, h2⟩ := hw
        subst h2
        exact ⟨rfl, iff_of_true rfl ⟨by omega, by omega⟩⟩
  · intro rb c rb1 v hsf hw
    rw [write_eq_safe hsf] at hw
    cases hwi : rb.writeInner c with
    | error e => rw [hwi] at hw; exact absurd hw (by simp)
    | ok p =>
        obtain ⟨rb2, segs⟩ := p
        rw [hwi] at hw
        simp only [Except.ok.injEq, Prod.mk.injEq] at hw
        obtain ⟨-, h2⟩ := hw
        subst h2
        rfl

/-- Witness for the amended C8: a non-wrapping untracked write reports
the plain-`Buffer` kind, and the same write tracked reports the
`BufferList` kind. -/
theorem view_kind_check_witness :
    ((⟨.contiguous 0 1, false, none⟩ : View).isBufferList
        = Segments.isWrapped (.contiguous 0 1) ∧
      (Segments.isWrapped (.contiguous 0 1) = true ↔
        ((1 : Nat) ≤ 2 ∧ 2 < 0 + 1))) ∧
    (⟨.contiguous 0 1, true, some 2⟩ : View).isBufferList = true :=
  ⟨view_kind_check.1 ⟨[0, 0], 0, false, false, 0⟩ [5]
      ⟨[5, 0], 1, false, false, 0⟩ ⟨.contiguous 0 1, false, none⟩ rfl rfl,
    view_kind_check.2 ⟨[0, 0], 0, false, true, 0⟩ [5]
      ⟨[5, 0], 1, false, true, 1⟩ ⟨.contiguous 0 1, true, some 2⟩ rfl rfl⟩

/-- C8 counterexample: in tracked mode a write that does NOT wrap
(capacity 2, cursor 0, one byte) still returns the `BufferList`
(composite) kind, because the proxy always wraps the result; the type
check therefore cannot report it as the contiguous kind, contrary to the
claim's "in every mode". -/
theorem view_kind_tracked_cex :
    RingBuffer.write ⟨[0, 0], 0, false, true, 0⟩ [5] =
      .ok (⟨[5, 0], 1, false, true, 1⟩, ⟨.contiguous 0 1, true, some 2⟩) ∧
    (0 : Nat) + 1 ≤ 2 ∧
    Segments.isWrapped (.contiguous 0 1) = false ∧
    (⟨.contiguous 0 1, true, some 2⟩ : View).isBufferList = true :=
  ⟨rfl, by decide, rfl, rfl⟩

/-- C9 (amended): the constructor performs no validation of its own; the
allocator (`Buffer.allocUnsafe`) rejects negative sizes, so construction
fails exactly for `capacity < 0` and succeeds for every `capacity ≥ 0` —
including the degenerate `capacity = 0` — amended from the claim's
failure for all `capacity ≤ 0`. -/
theorem construct_validation {size : Int} {st sf : Bool} :
    (0 ≤ size → RingBuffer.construct size st sf =
      .ok ⟨List.replicate size.toNat 0, 0, st, sf, 0⟩) ∧
    (size < 0 → RingBuffer.construct size st sf =
      .error "The value of size is out of range") :=
  ⟨construct_eq, construct_neg⟩

/-- Witness for the amended C9 at sizes 1 and -1. -/
theorem construct_validation_witness :
    RingBuffer.construct 1 false false =
      .ok ⟨List.replicate (Int.toNat 1) 0, 0, false, false, 0⟩ ∧
    RingBuffer.construct (-1) false false =
      .error "The value of size is out of range" :=
  ⟨construct_validation.1 (by decide), construct_validation.2 (by decide)⟩

/-- C9 counterexample: at capacity 0 the claim requires an
`InvalidCapacity` failure, but the code constructs a (degenerate) buffer
successfully. -/
theorem construct_zero_cex :
    RingBuffer.construct 0 false false = .ok ⟨[], 0, false, false, 0⟩ :=
  rfl

end SubarrayRingBuffer
